import Mathlib

set_option maxHeartbeats 1000000

/-!
Verification of the causal key-value store of spencer-p/cse138.

The development embeds, as pure Lean functions:
* the vector clock operations of the clock package (the package itself ships
  only by its contract, so each operation is modelled from the spec, marked
  in its doc comment);
* the Store engine of pkg/store/storage.go (Write, Delete, Read, NumKeys,
  ImportEntry, SetReplicas, BumpClockForNode, commitWrite and the waits);
* the routing decision shouldForward of pkg/handlers/handlers.go.

The Go code runs each public operation under one mutex, so a sequential
state-passing embedding is faithful: each operation maps the pre-state to a
result record carrying the Go named returns, the post-state and the journal
emissions of the call.  A wait that would block forever is `none`; the
shutdown/cancellation abandonment of a wait is driven by an oracle flag.
-/

/-- A vector clock: a Go map from node identifier to counter, represented as
an association list; an absent key means the counter is implicitly 0. -/
abbrev VectorClock := List (String × Nat)

/-- Map read on a vector clock; an absent key reads as 0. -/
def vcGet : VectorClock → String → Nat
  | [], _ => 0
  | (m, v) :: rest, n => if n = m then v else vcGet rest n

/-- Map assignment on a vector clock: replace the existing binding or append
a new one. -/
def vcSet : VectorClock → String → Nat → VectorClock
  | [], n, v => [(n, v)]
  | (m, w) :: rest, n, v =>
      if n = m then (m, v) :: rest else (m, w) :: vcSet rest n v

/-- Modelled from the spec: clock.VectorClock.Increment(node) bumps one
counter (the clock package is not under src). -/
def VectorClock.Increment (c : VectorClock) (n : String) : VectorClock :=
  vcSet c n (vcGet c n + 1)

/-- Modelled from the spec: clock.VectorClock.Max(other) is the pointwise
maximum over the union of keys (the clock package is not under src). -/
def VectorClock.Max (a b : VectorClock) : VectorClock :=
  ((a.map Prod.fst ++ b.map Prod.fst).dedup).map
    (fun k => (k, max (vcGet a k) (vcGet b k)))

/-- Modelled from the spec: clock.VectorClock.Copy() is a deep, independent
snapshot; in a pure value model this is the identity. -/
def VectorClock.Copy (c : VectorClock) : VectorClock := c

/-- Modelled from the spec: clock.VectorClock.Subset(nodes) restricts the
clock to counters for the given member set. -/
def VectorClock.Subset (c : VectorClock) (ms : List String) : VectorClock :=
  c.filter (fun kv => decide (kv.1 ∈ ms))

/-- Result of comparing two vector clocks. -/
inductive ClockOrd where
  | equal : ClockOrd
  | less : ClockOrd
  | greater : ClockOrd
  | concurrent : ClockOrd
deriving DecidableEq

/-- Pointwise domination test over the union of keys of two clocks (keys
missing from either side default to 0). -/
def domLE (a b : VectorClock) : Bool :=
  ((a.map Prod.fst ++ b.map Prod.fst).dedup).all
    (fun k => decide (vcGet a k ≤ vcGet b k))

/-- Modelled from the spec: clock.VectorClock.Compare returns Equal, Less,
Greater or Concurrent by pointwise comparison over all keys present in either
clock, missing keys defaulting to 0; Greater means the receiver strictly
dominates the argument. -/
def VectorClock.Compare (a b : VectorClock) : ClockOrd :=
  if domLE a b then (if domLE b a then ClockOrd.equal else ClockOrd.less)
  else (if domLE b a then ClockOrd.greater else ClockOrd.concurrent)

/-- Modelled from the spec: clock.VectorClock.OneUpExcept(node, other)
returns (canApply, stale): canApply is true iff, restricted to keys other
than node, the receiver is exactly one increment of exactly one counter
ahead of other; stale is true when the receiver is nowhere ahead (a
duplicate already applied). -/
def VectorClock.OneUpExcept (a : VectorClock) (node : String) (b : VectorClock) :
    Bool × Bool :=
  let ks := ((a.map Prod.fst ++ b.map Prod.fst).dedup).filter
    (fun k => decide (k ≠ node))
  (decide (ks.countP (fun k => decide (vcGet a k = vcGet b k + 1)) = 1) &&
    ks.all (fun k => decide (vcGet a k = vcGet b k) ||
      decide (vcGet a k = vcGet b k + 1)),
   ks.all (fun k => decide (vcGet a k ≤ vcGet b k)))

/-- Entry describes a full data point in the store (storage.go). -/
structure Entry where
  Key : String
  Value : String
  Deleted : Bool
  Clock : VectorClock
deriving DecidableEq

/-- The Go zero value of Entry, produced by a map read of an absent key. -/
def zeroEntry : Entry := { Key := "", Value := "", Deleted := false, Clock := [] }

/-- Store represents a volatile key value store (storage.go).  The mutex,
condition variable and journal channel are not state in this sequential
model: journal emissions are returned by each operation. -/
structure Store where
  addr : String
  replicas : List String
  store : List (String × Entry)
  vc : VectorClock
deriving DecidableEq

/-- Go map read on the key-entry map (an absent key gives none). -/
def storeGet : List (String × Entry) → String → Option Entry
  | [], _ => none
  | (k, e) :: rest, key => if key = k then some e else storeGet rest key

/-- Go map assignment on the key-entry map. -/
def storeSet : List (String × Entry) → String → Entry → List (String × Entry)
  | [], key, e => [(key, e)]
  | (k, old) :: rest, key, e =>
      if key = k then (k, e) :: rest else (k, old) :: storeSet rest key e

/-- New constructs an empty store at the given address (storage.go). -/
def Store.New (selfAddr : String) (replicas : List String) : Store :=
  { addr := selfAddr, replicas := replicas, store := [], vc := [] }

/-- ErrCannotApply is the only error value the store package declares
(storage.go). -/
inductive GoError where
  | ErrCannotApply : GoError
deriving DecidableEq

/-- The predicate of the causal wait in waitUntilCurrent (storage.go): the
incoming clock, restricted to current replicas, must not be strictly ahead
of the similarly restricted local clock. -/
def Store.canProceed (s : Store) (incoming : VectorClock) : Bool :=
  match VectorClock.Compare (VectorClock.Subset incoming s.replicas)
      (VectorClock.Subset s.vc s.replicas) with
  | ClockOrd.greater => false
  | _ => true

/-- Outcome of the blocking causal wait in the sequential model. -/
inductive WaitResult where
  | proceed : WaitResult
  | blocked : WaitResult
  | abandoned : WaitResult
deriving DecidableEq

/-- Modelled from the spec: waitUntilCurrent (storage.go) loops on the
condition variable until the incoming clock is not from the future.  The
loop in src has no return path other than nil; the shutdown/cancellation
abandonment the spec describes is not under src, so it is modelled by the
oracle flag ab, the only point any error can originate. -/
def Store.waitUntilCurrent (s : Store) (incoming : VectorClock) (ab : Bool) :
    WaitResult :=
  if s.canProceed incoming then WaitResult.proceed
  else if ab then WaitResult.abandoned
  else WaitResult.blocked

/-- commitWrite (storage.go): check whether a live entry previously existed,
increment the local node's own counter, stamp the entry with a copy of the
post-increment clock, store it, and, only when shouldJournal, emit an
independent copy for the gossip layer.  Returns (replaced, post-state,
journal emissions). -/
def Store.commitWrite (s : Store) (e : Entry) (shouldJournal : Bool) :
    Bool × Store × List Entry :=
  let replaced := match storeGet s.store e.Key with
    | some oldentry => !oldentry.Deleted
    | none => false
  let vc1 := VectorClock.Increment s.vc s.addr
  let e1 : Entry := { e with Clock := VectorClock.Copy vc1 }
  (replaced, { s with vc := vc1, store := storeSet s.store e.Key e1 },
    if shouldJournal then [e1] else [])

/-- The Go named returns of Write (storage.go), with the post-state and the
journal emissions of the call. -/
structure WriteResult where
  err : Option GoError
  replaced : Bool
  currentClock : VectorClock
  state : Store
  journal : List Entry
deriving DecidableEq

/-- Write (storage.go): wait until the store is causally current, merge the
client clock into the local clock, and commit a new non-deleted entry with
journaling.  none models a wait that never returns. -/
def Store.Write (s : Store) (ab : Bool) (tcausal : VectorClock)
    (key value : String) : Option WriteResult :=
  match s.waitUntilCurrent tcausal ab with
  | WaitResult.blocked => none
  | WaitResult.abandoned =>
      some { err := some GoError.ErrCannotApply, replaced := false,
             currentClock := VectorClock.Copy s.vc, state := s, journal := [] }
  | WaitResult.proceed =>
      let s1 : Store := { s with vc := VectorClock.Max s.vc tcausal }
      let c := Store.commitWrite s1
        { Key := key, Value := value, Deleted := false, Clock := [] } true
      some { err := none, replaced := c.1,
             currentClock := VectorClock.Copy c.2.1.vc, state := c.2.1,
             journal := c.2.2 }

/-- The Go named returns of Delete (storage.go), with the post-state and the
journal emissions of the call. -/
structure DeleteResult where
  err : Option GoError
  deleted : Bool
  currentClock : VectorClock
  state : Store
  journal : List Entry
deriving DecidableEq

/-- Delete (storage.go): wait, then commit a tombstone only when a live
(non-deleted) entry currently exists; otherwise return without mutating. -/
def Store.Delete (s : Store) (ab : Bool) (tcausal : VectorClock) (key : String) :
    Option DeleteResult :=
  match s.waitUntilCurrent tcausal ab with
  | WaitResult.blocked => none
  | WaitResult.abandoned =>
      some { err := some GoError.ErrCannotApply, deleted := false,
             currentClock := VectorClock.Copy s.vc, state := s, journal := [] }
  | WaitResult.proceed =>
      match storeGet s.store key with
      | none =>
          some { err := none, deleted := false,
                 currentClock := VectorClock.Copy s.vc, state := s, journal := [] }
      | some entry =>
          if entry.Deleted then
            some { err := none, deleted := false,
                   currentClock := VectorClock.Copy s.vc, state := s, journal := [] }
          else
            let s1 : Store := { s with vc := VectorClock.Max s.vc tcausal }
            let c := Store.commitWrite s1
              { Key := key, Value := "", Deleted := true, Clock := [] } true
            some { err := none, deleted := c.1,
                   currentClock := VectorClock.Copy c.2.1.vc, state := c.2.1,
                   journal := c.2.2 }

/-- The Go named returns of Read (storage.go), with the post-state. -/
structure ReadResult where
  err : Option GoError
  e : Entry
  ok : Bool
  currentClock : VectorClock
  state : Store
deriving DecidableEq

/-- Read (storage.go): wait, then read the entry for the key; a deleted
entry is reported as if it did not exist. -/
def Store.Read (s : Store) (ab : Bool) (tcausal : VectorClock) (key : String) :
    Option ReadResult :=
  match s.waitUntilCurrent tcausal ab with
  | WaitResult.blocked => none
  | WaitResult.abandoned =>
      some { err := some GoError.ErrCannotApply, e := zeroEntry, ok := false,
             currentClock := VectorClock.Copy s.vc, state := s }
  | WaitResult.proceed =>
      let p := match storeGet s.store key with
        | some e0 => (e0, true)
        | none => (zeroEntry, false)
      some { err := none, e := p.1, ok := if p.1.Deleted then false else p.2,
             currentClock := VectorClock.Copy s.vc, state := s }

/-- The Go named returns of NumKeys (storage.go), with the post-state. -/
structure NumKeysResult where
  err : Option GoError
  count : Nat
  currentClock : VectorClock
  state : Store
deriving DecidableEq

/-- NumKeys (storage.go): wait, then count only the not deleted keys of the
map. -/
def Store.NumKeys (s : Store) (ab : Bool) (tcausal : VectorClock) :
    Option NumKeysResult :=
  match s.waitUntilCurrent tcausal ab with
  | WaitResult.blocked => none
  | WaitResult.abandoned =>
      some { err := some GoError.ErrCannotApply, count := 0,
             currentClock := VectorClock.Copy s.vc, state := s }
  | WaitResult.proceed =>
      some { err := none, count := s.store.countP (fun kv => !kv.2.Deleted),
             currentClock := VectorClock.Copy s.vc, state := s }

/-- Modelled from the spec: waitForGossip (storage.go) blocks until the
incoming clock is the next expected update from its originating node, via
OneUpExcept; as with waitUntilCurrent, the loop has no error return path in
src, so only its predicate is modelled. -/
def Store.waitForGossip (s : Store) (incoming : VectorClock) : Bool :=
  (VectorClock.OneUpExcept (VectorClock.Subset incoming s.replicas) s.addr
    (VectorClock.Subset s.vc s.replicas)).1

/-- Outcome of ImportEntry in the sequential model. -/
inductive ImportResult where
  | blocked : ImportResult
  | crashed : ImportResult
  | done : Store → ImportResult
deriving DecidableEq

/-- ImportEntry (storage.go), embedded as written.  After the gossip wait
the source executes a statement incrementing the Vec of the map entry for
key at address; that statement names a field Store and variables key and
address that do not exist in scope (the struct field is store, and only s
and e are bound), so the package does not compile.  Under the nearest
reading (field store, key is e.Key, address is s.addr) it increments the
stored entry's clock for the imported key at the local address, and when
that key is absent it is a method call through a missing map entry's nil
clock, which crashes at run time.  The model then merges the entry clock
into the local clock and commits without journaling, as the remaining
source lines do. -/
def Store.ImportEntry (s : Store) (e : Entry) : ImportResult :=
  if s.waitForGossip e.Clock then
    match storeGet s.store e.Key with
    | none => ImportResult.crashed
    | some old =>
        let old1 : Entry := { old with Clock := VectorClock.Increment old.Clock s.addr }
        let s1 : Store := { s with store := storeSet s.store e.Key old1 }
        let s2 : Store := { s1 with vc := VectorClock.Max s1.vc e.Clock }
        ImportResult.done (Store.commitWrite s2 e false).2.1
  else ImportResult.blocked

/-- SetReplicas (storage.go): replace the replica list used for clock
subsetting. -/
def Store.SetReplicas (s : Store) (nodes : List String) : Store :=
  { s with replicas := nodes }

/-- BumpClockForNode (storage.go): advance one counter on behalf of another
node and wake all waiters. -/
def Store.BumpClockForNode (s : Store) (node : String) : Store :=
  { s with vc := VectorClock.Increment s.vc node }

/-- One public operation of the Store, for stating invariants uniformly. -/
inductive StoreOp where
  | write (tcausal : VectorClock) (key value : String) : StoreOp
  | delete (tcausal : VectorClock) (key : String) : StoreOp
  | read (tcausal : VectorClock) (key : String) : StoreOp
  | numKeys (tcausal : VectorClock) : StoreOp
  | importEntry (e : Entry) : StoreOp
  | bumpClockForNode (node : String) : StoreOp
  | setReplicas (nodes : List String) : StoreOp

/-- The state reached by one public operation; none when the operation
blocks forever or crashes. -/
def Store.applyOp (s : Store) (ab : Bool) : StoreOp → Option Store
  | StoreOp.write tc k v => (s.Write ab tc k v).map WriteResult.state
  | StoreOp.delete tc k => (s.Delete ab tc k).map DeleteResult.state
  | StoreOp.read tc k => (s.Read ab tc k).map ReadResult.state
  | StoreOp.numKeys tc => (s.NumKeys ab tc).map NumKeysResult.state
  | StoreOp.importEntry e =>
      match s.ImportEntry e with
      | ImportResult.done s2 => some s2
      | _ => none
  | StoreOp.bumpClockForNode n => some (s.BumpClockForNode n)
  | StoreOp.setReplicas ns => some (s.SetReplicas ns)

/-- shouldForward (pkg/handlers/handlers.go): serve locally when the hash
layer's Get fails, otherwise forward exactly when the owning member differs
from this node's address.  The hash layer appears under src only through
its Get interface, so it is passed as a function. -/
def shouldForward (hashGet : String → Except String String) (address : String)
    (key : String) : Bool :=
  match hashGet key with
  | Except.error _ => false
  | Except.ok nodeAddr => if nodeAddr = address then false else true

/-- A live sample entry, for concrete instantiations. -/
def aliveEntry : Entry := { Key := "a", Value := "old", Deleted := false, Clock := [("A", 1)] }

/-- A sample store holding one live entry. -/
def sA : Store := { addr := "A", replicas := ["A"], store := [("a", aliveEntry)], vc := [("A", 1)] }

/-- The entry committed by writing "a"="1" on a fresh store at "A". -/
def wEntry : Entry := { Key := "a", Value := "1", Deleted := false, Clock := [("A", 1)] }

/-- The result of writing "a"="1" with clock {} on a fresh store at "A". -/
def rW : WriteResult :=
  { err := none, replaced := false, currentClock := [("A", 1)],
    state := { addr := "A", replicas := ["A"], store := [("a", wEntry)], vc := [("A", 1)] },
    journal := [wEntry] }

/-- The tombstone committed by deleting "a" on the sample store. -/
def tombEntry : Entry := { Key := "a", Value := "", Deleted := true, Clock := [("A", 2)] }

/-- The result of deleting "a" with clock {} on the sample store. -/
def rD : DeleteResult :=
  { err := none, deleted := true, currentClock := [("A", 2)],
    state := { addr := "A", replicas := ["A"], store := [("a", tombEntry)], vc := [("A", 2)] },
    journal := [tombEntry] }

/-- The result of reading "a" with clock {} on the sample store. -/
def qR : ReadResult :=
  { err := none, e := aliveEntry, ok := true, currentClock := [("A", 1)], state := sA }

/-- An empty store whose replica set is a different node. -/
def sB : Store := { addr := "A", replicas := ["B"], store := [], vc := [] }

/-- The result of a write abandoned while waiting on a future clock. -/
def rE : WriteResult :=
  { err := some GoError.ErrCannotApply, replaced := false, currentClock := [],
    state := sB, journal := [] }

/-- The sample store after bumping node B's counter. -/
def sBumped : Store :=
  { addr := "A", replicas := ["A"], store := [("a", aliveEntry)], vc := [("A", 1), ("B", 1)] }

/-- A hash membership function that owns every key at node B. -/
def hashGetB : String → Except String String := fun _ => Except.ok "B"

/-! Helper lemmas about the clock and map operations. -/

theorem vcGet_vcSet (c : VectorClock) (n : String) (v : Nat) (m : String) :
    vcGet (vcSet c n v) m = if m = n then v else vcGet c m := by
  induction c with
  | nil => simp [vcSet, vcGet]
  | cons kv rest ih =>
      obtain ⟨k, w⟩ := kv
      by_cases hnk : n = k
      · subst hnk
        simp only [vcSet, if_pos rfl]
        by_cases hmn : m = n <;> simp [vcGet, hmn]
      · simp only [vcSet, if_neg hnk]
        by_cases hmk : m = k
        · subst hmk
          have hmn : ¬ m = n := fun hc => hnk (hc ▸ rfl)
          simp [vcGet, hmn]
        · simp [vcGet, hmk, ih]

theorem vcGet_Increment (c : VectorClock) (k m : String) :
    vcGet (VectorClock.Increment c k) m = vcGet c m + (if m = k then 1 else 0) := by
  unfold VectorClock.Increment
  rw [vcGet_vcSet]
  by_cases hmk : m = k
  · subst hmk; simp
  · simp [hmk]

theorem vcGet_eq_zero_of_not_mem (c : VectorClock) (n : String)
    (h : n ∉ c.map Prod.fst) : vcGet c n = 0 := by
  induction c with
  | nil => rfl
  | cons kv rest ih =>
      obtain ⟨k, w⟩ := kv
      simp only [List.map_cons, List.mem_cons] at h
      push_neg at h
      simp [vcGet, h.1, ih h.2]

theorem vcGet_map_keys (ks : List String) (f : String → Nat) (n : String) :
    vcGet (ks.map (fun k => (k, f k))) n = if n ∈ ks then f n else 0 := by
  induction ks with
  | nil => simp [vcGet]
  | cons k rest ih =>
      by_cases hnk : n = k
      · subst hnk; simp [vcGet]
      · simp [vcGet, hnk, ih]

theorem vcGet_Max (a b : VectorClock) (n : String) :
    vcGet (VectorClock.Max a b) n = max (vcGet a n) (vcGet b n) := by
  unfold VectorClock.Max
  rw [vcGet_map_keys]
  by_cases hn : n ∈ (a.map Prod.fst ++ b.map Prod.fst).dedup
  · simp [hn]
  · rw [if_neg hn]
    have hna : n ∉ a.map Prod.fst := fun hmem =>
      hn (List.mem_dedup.mpr (List.mem_append.mpr (Or.inl hmem)))
    have hnb : n ∉ b.map Prod.fst := fun hmem =>
      hn (List.mem_dedup.mpr (List.mem_append.mpr (Or.inr hmem)))
    rw [vcGet_eq_zero_of_not_mem a n hna, vcGet_eq_zero_of_not_mem b n hnb]
    simp

theorem domLE_eq_true_iff (a b : VectorClock) :
    domLE a b = true ↔ ∀ n, vcGet a n ≤ vcGet b n := by
  constructor
  · intro h n
    by_cases hn : n ∈ (a.map Prod.fst ++ b.map Prod.fst).dedup
    · have := List.all_eq_true.mp h n hn
      simpa using this
    · have hna : n ∉ a.map Prod.fst := fun hmem =>
        hn (List.mem_dedup.mpr (List.mem_append.mpr (Or.inl hmem)))
      rw [vcGet_eq_zero_of_not_mem a n hna]
      exact Nat.zero_le _
  · intro h
    apply List.all_eq_true.mpr
    intro n _
    simpa using h n

theorem Compare_self (c : VectorClock) : VectorClock.Compare c c = ClockOrd.equal := by
  have h : domLE c c = true := (domLE_eq_true_iff c c).mpr (fun n => le_rfl)
  simp [VectorClock.Compare, h]

theorem canProceed_own (s : Store) : s.canProceed s.vc = true := by
  simp [Store.canProceed, Compare_self]

theorem wait_proceed_iff (s : Store) (tc : VectorClock) (ab : Bool) :
    s.waitUntilCurrent tc ab = WaitResult.proceed ↔ s.canProceed tc = true := by
  unfold Store.waitUntilCurrent
  by_cases h1 : s.canProceed tc = true
  · simp [h1]
  · cases ab <;> simp [h1]

theorem wait_abandoned_iff (s : Store) (tc : VectorClock) (ab : Bool) :
    s.waitUntilCurrent tc ab = WaitResult.abandoned ↔
      (s.canProceed tc = false ∧ ab = true) := by
  unfold Store.waitUntilCurrent
  by_cases h1 : s.canProceed tc = true
  · simp [h1]
  · cases ab <;> simp [h1, Bool.eq_false_iff, h1]

theorem storeGet_storeSet (st : List (String × Entry)) (key : String) (e : Entry)
    (k : String) :
    storeGet (storeSet st key e) k = if k = key then some e else storeGet st k := by
  induction st with
  | nil => simp [storeSet, storeGet]
  | cons kv rest ih =>
      obtain ⟨k0, e0⟩ := kv
      by_cases hkey : key = k0
      · subst hkey
        simp only [storeSet, if_pos rfl]
        by_cases hk : k = key <;> simp [storeGet, hk]
      · simp only [storeSet, if_neg hkey]
        by_cases hk : k = k0
        · subst hk
          have hne : ¬ k = key := fun hc => hkey (hc ▸ rfl)
          simp [storeGet, hne]
        · simp [storeGet, hk, ih]

theorem isSome_storeGet_storeSet (st : List (String × Entry)) (key : String)
    (e : Entry) (k : String) (h : (storeGet st k).isSome = true) :
    (storeGet (storeSet st key e) k).isSome = true := by
  rw [storeGet_storeSet]
  by_cases hk : k = key <;> simp [hk, h]

/-! Claim theorems. -/

/-- C1: every Write that returns without error merges the client clock
pointwise (Max) into the store clock and increments the store's own counter
once, leaves the key mapped to a non-deleted Entry holding the value and
stamped with a copy of the post-increment clock, and reports replaced
exactly when a live (non-tombstoned) entry for the key existed before the
write. -/
theorem Write_correct (s : Store) (ab : Bool) (tc : VectorClock)
    (key value : String) (r : WriteResult)
    (h : s.Write ab tc key value = some r) (he : r.err = none) :
    (∀ n, vcGet r.state.vc n =
        max (vcGet s.vc n) (vcGet tc n) + (if n = s.addr then 1 else 0)) ∧
    storeGet r.state.store key =
      some { Key := key, Value := value, Deleted := false, Clock := r.state.vc } ∧
    (r.replaced = true ↔
      ∃ e0, storeGet s.store key = some e0 ∧ e0.Deleted = false) := by
  rcases hw : s.waitUntilCurrent tc ab with _ | _ | _ <;>
    simp only [Store.Write, hw, Store.commitWrite, VectorClock.Copy] at h
  · rw [Option.some_inj] at h
    subst h
    refine ⟨?_, ?_, ?_⟩
    · intro n
      simp [vcGet_Increment, vcGet_Max]
    · simp [storeGet_storeSet]
    · cases hg : storeGet s.store key <;> simp [hg]
  · exact absurd h (by simp)
  · rw [Option.some_inj] at h
    subst h
    simp at he

/-- C3: every Delete that returns without error commits a tombstone and
reports deleted=true when a live entry exists (advancing the clock by the
merge and one increment), and otherwise reports deleted=false leaving the
map and the clock reached by the causal wait unchanged by any commit. -/
theorem Delete_correct (s : Store) (ab : Bool) (tc : VectorClock) (key : String)
    (r : DeleteResult) (h : s.Delete ab tc key = some r) (he : r.err = none) :
    ((∃ e0, storeGet s.store key = some e0 ∧ e0.Deleted = false) →
      r.deleted = true ∧
      storeGet r.state.store key =
        some { Key := key, Value := "", Deleted := true, Clock := r.state.vc } ∧
      (∀ n, vcGet r.state.vc n =
        max (vcGet s.vc n) (vcGet tc n) + (if n = s.addr then 1 else 0))) ∧
    (¬ (∃ e0, storeGet s.store key = some e0 ∧ e0.Deleted = false) →
      r.deleted = false ∧ r.state = s ∧ r.currentClock = s.vc) := by
  rcases hw : s.waitUntilCurrent tc ab with _ | _ | _ <;>
    simp only [Store.Delete, hw, Store.commitWrite, VectorClock.Copy] at h
  · cases hg : storeGet s.store key with
    | none =>
        rw [hg] at h
        simp only [Option.some_inj] at h
        subst h
        constructor
        · rintro ⟨e0, he0, -⟩
          exact Option.noConfusion he0
        · intro _
          exact ⟨rfl, rfl, rfl⟩
    | some entry =>
        rw [hg] at h
        by_cases hd : entry.Deleted
        · simp only [hd, if_true, Option.some_inj] at h
          subst h
          constructor
          · rintro ⟨e0, he0, hlive⟩
            injection he0 with he1
            subst he1
            rw [hlive] at hd
            exact absurd hd (by simp)
          · intro _
            exact ⟨rfl, rfl, rfl⟩
        · have hd2 : entry.Deleted = false := by simpa using hd
          simp only [hd2, Bool.false_eq_true, if_false, Option.some_inj] at h
          subst h
          constructor
          · intro _
            refine ⟨?_, ?_, ?_⟩
            · simp [hd2]
            · simp [storeGet_storeSet]
            · intro n
              simp [vcGet_Increment, vcGet_Max]
          · intro hno
            exact absurd ⟨entry, rfl, hd2⟩ hno
  · exact absurd h (by simp)
  · rw [Option.some_inj] at h
    subst h
    simp at he

theorem countP_live_eq (st : List (String × Entry))
    (hnd : (st.map Prod.fst).Nodup) :
    st.countP (fun kv => !kv.2.Deleted) =
    ((st.map Prod.fst).filter (fun k =>
      match storeGet st k with
      | some e0 => !e0.Deleted
      | none => false)).length := by
  induction st with
  | nil => simp
  | cons kv rest ih =>
      obtain ⟨k0, e0⟩ := kv
      simp only [List.map_cons, List.nodup_cons] at hnd
      obtain ⟨hk0, hnd2⟩ := hnd
      have htail :
          (rest.map Prod.fst).filter (fun k =>
            match storeGet ((k0, e0) :: rest) k with
            | some e1 => !e1.Deleted
            | none => false) =
          (rest.map Prod.fst).filter (fun k =>
            match storeGet rest k with
            | some e1 => !e1.Deleted
            | none => false) := by
        apply List.filter_congr
        intro k hk
        have hne : ¬ k = k0 := fun hc => hk0 (hc ▸ hk)
        simp [storeGet, hne]
      rw [List.countP_cons, List.map_cons, List.filter_cons, htail]
      by_cases hdel : e0.Deleted
      · simp [storeGet, hdel, ih hnd2]
      · have hdel2 : e0.Deleted = false := by simpa using hdel
        simp [storeGet, hdel2, ih hnd2]

/-- C4: Read reports ok=false exactly for a missing or tombstoned key and
leaves the whole store state unchanged; NumKeys returns exactly the number
of keys whose current entry is not tombstoned and also leaves the state
unchanged. -/
theorem Read_NumKeys_pure (s : Store) (ab : Bool) (tc : VectorClock)
    (key : String) (hnd : (s.store.map Prod.fst).Nodup) :
    (∀ r : ReadResult, s.Read ab tc key = some r → r.err = none →
      r.state = s ∧
      (r.ok = false ↔ (storeGet s.store key = none ∨
        ∃ e0, storeGet s.store key = some e0 ∧ e0.Deleted = true))) ∧
    (∀ q : NumKeysResult, s.NumKeys ab tc = some q → q.err = none →
      q.state = s ∧
      q.count = ((s.store.map Prod.fst).filter (fun k =>
        match storeGet s.store k with
        | some e0 => !e0.Deleted
        | none => false)).length) := by
  constructor
  · intro r h he
    rcases hw : s.waitUntilCurrent tc ab with _ | _ | _ <;>
      simp only [Store.Read, hw, VectorClock.Copy] at h
    · cases hg : storeGet s.store key with
      | none =>
          rw [hg] at h
          simp only [Option.some_inj] at h
          subst h
          refine ⟨rfl, ?_⟩
          simp [zeroEntry]
      | some e1 =>
          rw [hg] at h
          simp only [Option.some_inj] at h
          subst h
          refine ⟨rfl, ?_⟩
          by_cases hd : e1.Deleted
          · simp [hd]
          · have hd2 : e1.Deleted = false := by simpa using hd
            simp [hd2]
    · exact absurd h (by simp)
    · rw [Option.some_inj] at h
      subst h
      simp at he
  · intro q h he
    rcases hw : s.waitUntilCurrent tc ab with _ | _ | _ <;>
      simp only [Store.NumKeys, hw, VectorClock.Copy] at h
    · rw [Option.some_inj] at h
      subst h
      exact ⟨rfl, countP_live_eq s.store hnd⟩
    · exact absurd h (by simp)
    · rw [Option.some_inj] at h
      subst h
      simp at he

/-- C5: each of the four causal operations can return a non-nil error only
as ErrCannotApply, and only when the causal wait is abandoned while the
wait predicate does not hold; there is no other failure mode. -/
theorem errors_only_cannotApply (s : Store) (ab : Bool) (tc : VectorClock)
    (key value : String) :
    (∀ r : WriteResult, s.Write ab tc key value = some r → r.err ≠ none →
      r.err = some GoError.ErrCannotApply ∧ ab = true ∧ s.canProceed tc = false) ∧
    (∀ r : DeleteResult, s.Delete ab tc key = some r → r.err ≠ none →
      r.err = some GoError.ErrCannotApply ∧ ab = true ∧ s.canProceed tc = false) ∧
    (∀ r : ReadResult, s.Read ab tc key = some r → r.err ≠ none →
      r.err = some GoError.ErrCannotApply ∧ ab = true ∧ s.canProceed tc = false) ∧
    (∀ q : NumKeysResult, s.NumKeys ab tc = some q → q.err ≠ none →
      q.err = some GoError.ErrCannotApply ∧ ab = true ∧ s.canProceed tc = false) := by
  have hab : ∀ h2 : s.waitUntilCurrent tc ab = WaitResult.abandoned,
      ab = true ∧ s.canProceed tc = false := by
    intro h2
    have := (wait_abandoned_iff s tc ab).mp h2
    exact ⟨this.2, this.1⟩
  refine ⟨?_, ?_, ?_, ?_⟩
  · intro r h he
    rcases hw : s.waitUntilCurrent tc ab with _ | _ | _ <;>
      simp only [Store.Write, hw, VectorClock.Copy] at h
    · rw [Option.some_inj] at h
      subst h
      simp at he
    · exact absurd h (by simp)
    · rw [Option.some_inj] at h
      subst h
      exact ⟨rfl, (hab hw).1, (hab hw).2⟩
  · intro r h he
    rcases hw : s.waitUntilCurrent tc ab with _ | _ | _ <;>
      simp only [Store.Delete, hw, VectorClock.Copy] at h
    · cases hg : storeGet s.store key with
      | none =>
          rw [hg] at h
          simp only [Option.some_inj] at h
          subst h
          simp at he
      | some e1 =>
          rw [hg] at h
          by_cases hd : e1.Deleted
          · simp only [hd, if_true, Option.some_inj] at h
            subst h
            simp at he
          · have hd2 : e1.Deleted = false := by simpa using hd
            simp only [hd2, Bool.false_eq_true, if_false, Option.some_inj] at h
            subst h
            simp at he
    · exact absurd h (by simp)
    · rw [Option.some_inj] at h
      subst h
      exact ⟨rfl, (hab hw).1, (hab hw).2⟩
  · intro r h he
    rcases hw : s.waitUntilCurrent tc ab with _ | _ | _ <;>
      simp only [Store.Read, hw, VectorClock.Copy] at h
    · cases hg : storeGet s.store key with
      | none =>
          rw [hg] at h
          simp only [Option.some_inj] at h
          subst h
          simp at he
      | some e1 =>
          rw [hg] at h
          simp only [Option.some_inj] at h
          subst h
          simp at he
    · exact absurd h (by simp)
    · rw [Option.some_inj] at h
      subst h
      exact ⟨rfl, (hab hw).1, (hab hw).2⟩
  · intro q h he
    rcases hw : s.waitUntilCurrent tc ab with _ | _ | _ <;>
      simp only [Store.NumKeys, hw, VectorClock.Copy] at h
    · rw [Option.some_inj] at h
      subst h
      simp at he
    · exact absurd h (by simp)
    · rw [Option.some_inj] at h
      subst h
      exact ⟨rfl, (hab hw).1, (hab hw).2⟩

/-- C6: writing "a"="1" with clock {} on a fresh store and then reading "a"
with the clock returned by the write yields ok=true with value "1"; the
read's causal wait predicate is already satisfied, so the read does not
block. -/
theorem write_read_roundtrip (addr : String) (replicas : List String)
    (ab1 ab2 : Bool) :
    ∃ r : WriteResult, (Store.New addr replicas).Write ab1 [] "a" "1" = some r ∧
      r.err = none ∧ r.state.canProceed r.currentClock = true ∧
      ∃ q : ReadResult, r.state.Read ab2 r.currentClock "a" = some q ∧
        q.err = none ∧ q.ok = true ∧ q.e.Value = "1" := by
  have h0 : (Store.New addr replicas).canProceed [] = true := by
    simp [Store.canProceed, Store.New, VectorClock.Subset, VectorClock.Compare, domLE]
  have hwait : (Store.New addr replicas).waitUntilCurrent [] ab1 = WaitResult.proceed :=
    (wait_proceed_iff _ _ _).mpr h0
  simp only [Store.New] at hwait
  refine ⟨{ err := none, replaced := false, currentClock := [(addr, 1)],
            state := { addr := addr, replicas := replicas,
                       store := [("a", { Key := "a", Value := "1", Deleted := false,
                                         Clock := [(addr, 1)] })],
                       vc := [(addr, 1)] },
            journal := [{ Key := "a", Value := "1", Deleted := false,
                          Clock := [(addr, 1)] }] }, ?_, rfl, ?_, ?_⟩
  · simp [Store.Write, hwait, Store.commitWrite, VectorClock.Copy, Store.New,
      VectorClock.Max, VectorClock.Increment, vcSet, vcGet, storeGet, storeSet]
  · exact canProceed_own _
  · have hwait2 :
        Store.waitUntilCurrent
          { addr := addr, replicas := replicas,
            store := [("a", { Key := "a", Value := "1", Deleted := false,
                              Clock := [(addr, 1)] })],
            vc := [(addr, 1)] } [(addr, 1)] ab2 = WaitResult.proceed :=
      (wait_proceed_iff _ _ _).mpr (canProceed_own _)
    refine ⟨{ err := none,
              e := { Key := "a", Value := "1", Deleted := false, Clock := [(addr, 1)] },
              ok := true, currentClock := [(addr, 1)],
              state := { addr := addr, replicas := replicas,
                         store := [("a", { Key := "a", Value := "1", Deleted := false,
                                           Clock := [(addr, 1)] })],
                         vc := [(addr, 1)] } }, ?_, rfl, rfl, rfl⟩
    simp [Store.Read, hwait2, VectorClock.Copy, storeGet]

/-- C2: at a concrete import admitted by the gossip wait, ImportEntry as
written crashes instead of committing the remote entry: its statement
incrementing the stored clock dereferences the missing map entry for the
imported key, and it names identifiers that do not exist in the package,
which therefore does not compile. -/
theorem ImportEntry_crashes_on_new_key :
    Store.ImportEntry (Store.New "A" ["A", "B"])
      { Key := "a", Value := "1", Deleted := false, Clock := [("B", 1)] } =
    ImportResult.crashed := by decide

/-- C7: across every public Store operation, every node counter of the
store's vector clock is non-decreasing. -/
theorem vc_monotone (s : Store) (ab : Bool) (op : StoreOp) (s2 : Store)
    (h : s.applyOp ab op = some s2) (n : String) :
    vcGet s.vc n ≤ vcGet s2.vc n := by
  have hmax : ∀ (a b : VectorClock) (m : String),
      vcGet a m ≤ vcGet (VectorClock.Max a b) m := by
    intro a b m
    rw [vcGet_Max]
    exact le_max_left _ _
  have hinc : ∀ (c : VectorClock) (k m : String),
      vcGet c m ≤ vcGet (VectorClock.Increment c k) m := by
    intro c k m
    rw [vcGet_Increment]
    exact Nat.le_add_right _ _
  cases op with
  | write tc k v =>
      simp only [Store.applyOp, Option.map_eq_some'] at h
      obtain ⟨r, hr, hst⟩ := h
      rcases hw : s.waitUntilCurrent tc ab with _ | _ | _ <;>
        simp only [Store.Write, hw, Store.commitWrite, VectorClock.Copy,
          Option.some_inj] at hr
      · subst hr
        subst hst
        exact le_trans (hmax s.vc tc n) (hinc _ s.addr n)
      · exact absurd hr (by simp)
      · subst hr
        subst hst
        exact le_rfl
  | delete tc k =>
      simp only [Store.applyOp, Option.map_eq_some'] at h
      obtain ⟨r, hr, hst⟩ := h
      rcases hw : s.waitUntilCurrent tc ab with _ | _ | _ <;>
        simp only [Store.Delete, hw, Store.commitWrite, VectorClock.Copy] at hr
      · cases hg : storeGet s.store k with
        | none =>
            rw [hg] at hr
            rw [Option.some_inj] at hr
            subst hr
            subst hst
            exact le_rfl
        | some e1 =>
            rw [hg] at hr
            by_cases hd : e1.Deleted
            · simp only [hd, if_true, Option.some_inj] at hr
              subst hr
              subst hst
              exact le_rfl
            · have hd2 : e1.Deleted = false := by simpa using hd
              simp only [hd2, Bool.false_eq_true, if_false, Option.some_inj] at hr
              subst hr
              subst hst
              exact le_trans (hmax s.vc tc n) (hinc _ s.addr n)
      · exact absurd hr (by simp)
      · rw [Option.some_inj] at hr
        subst hr
        subst hst
        exact le_rfl
  | read tc k =>
      simp only [Store.applyOp, Option.map_eq_some'] at h
      obtain ⟨r, hr, hst⟩ := h
      rcases hw : s.waitUntilCurrent tc ab with _ | _ | _ <;>
        simp only [Store.Read, hw, VectorClock.Copy] at hr
      · cases hg : storeGet s.store k with
        | none =>
            rw [hg] at hr
            rw [Option.some_inj] at hr
            subst hr
            subst hst
            exact le_rfl
        | some e1 =>
            rw [hg] at hr
            rw [Option.some_inj] at hr
            subst hr
            subst hst
            exact le_rfl
      · exact absurd hr (by simp)
      · rw [Option.some_inj] at hr
        subst hr
        subst hst
        exact le_rfl
  | numKeys tc =>
      simp only [Store.applyOp, Option.map_eq_some'] at h
      obtain ⟨r, hr, hst⟩ := h
      rcases hw : s.waitUntilCurrent tc ab with _ | _ | _ <;>
        simp only [Store.NumKeys, hw, VectorClock.Copy, Option.some_inj] at hr
      · subst hr
        subst hst
        exact le_rfl
      · exact absurd hr (by simp)
      · subst hr
        subst hst
        exact le_rfl
  | importEntry e =>
      simp only [Store.applyOp] at h
      rcases hi : s.ImportEntry e with _ | _ | s3 <;> simp only [hi] at h
      · exact absurd h (by simp)
      · exact absurd h (by simp)
      · rw [Option.some_inj] at h
        subst h
        by_cases hg : s.waitForGossip e.Clock = true
        · simp only [Store.ImportEntry, hg, if_true] at hi
          cases hsg : storeGet s.store e.Key with
          | none =>
              rw [hsg] at hi
              exact absurd hi (by simp)
          | some old =>
              rw [hsg] at hi
              simp only [Store.commitWrite, ImportResult.done.injEq] at hi
              subst hi
              exact le_trans (hmax s.vc e.Clock n) (hinc _ s.addr n)
        · have hg2 : s.waitForGossip e.Clock = false := by simpa using hg
          simp only [Store.ImportEntry, hg2, Bool.false_eq_true, if_false] at hi
          exact absurd hi (by simp)
  | bumpClockForNode node =>
      simp only [Store.applyOp, Option.some_inj] at h
      subst h
      exact hinc s.vc node n
  | setReplicas ns =>
      simp only [Store.applyOp, Option.some_inj] at h
      subst h
      exact le_rfl

/-- C8: no public Store operation ever removes a key from the map: every key
present before an operation is still present after it (a delete only
replaces the entry with a tombstone, and a write supersedes it in place). -/
theorem keys_never_removed (s : Store) (ab : Bool) (op : StoreOp) (s2 : Store)
    (h : s.applyOp ab op = some s2) (k : String)
    (hk : (storeGet s.store k).isSome = true) :
    (storeGet s2.store k).isSome = true := by
  cases op with
  | write tc k0 v =>
      simp only [Store.applyOp, Option.map_eq_some'] at h
      obtain ⟨r, hr, hst⟩ := h
      rcases hw : s.waitUntilCurrent tc ab with _ | _ | _ <;>
        simp only [Store.Write, hw, Store.commitWrite, VectorClock.Copy,
          Option.some_inj] at hr
      · subst hr
        subst hst
        exact isSome_storeGet_storeSet s.store k0 _ k hk
      · exact absurd hr (by simp)
      · subst hr
        subst hst
        exact hk
  | delete tc k0 =>
      simp only [Store.applyOp, Option.map_eq_some'] at h
      obtain ⟨r, hr, hst⟩ := h
      rcases hw : s.waitUntilCurrent tc ab with _ | _ | _ <;>
        simp only [Store.Delete, hw, Store.commitWrite, VectorClock.Copy] at hr
      · cases hg : storeGet s.store k0 with
        | none =>
            rw [hg] at hr
            rw [Option.some_inj] at hr
            subst hr
            subst hst
            exact hk
        | some e1 =>
            rw [hg] at hr
            by_cases hd : e1.Deleted
            · simp only [hd, if_true, Option.some_inj] at hr
              subst hr
              subst hst
              exact hk
            · have hd2 : e1.Deleted = false := by simpa using hd
              simp only [hd2, Bool.false_eq_true, if_false, Option.some_inj] at hr
              subst hr
              subst hst
              exact isSome_storeGet_storeSet s.store k0 _ k hk
      · exact absurd hr (by simp)
      · rw [Option.some_inj] at hr
        subst hr
        subst hst
        exact hk
  | read tc k0 =>
      simp only [Store.applyOp, Option.map_eq_some'] at h
      obtain ⟨r, hr, hst⟩ := h
      rcases hw : s.waitUntilCurrent tc ab with _ | _ | _ <;>
        simp only [Store.Read, hw, VectorClock.Copy] at hr
      · cases hg : storeGet s.store k0 with
        | none =>
            rw [hg] at hr
            rw [Option.some_inj] at hr
            subst hr
            subst hst
            exact hk
        | some e1 =>
            rw [hg] at hr
            rw [Option.some_inj] at hr
            subst hr
            subst hst
            exact hk
      · exact absurd hr (by simp)
      · rw [Option.some_inj] at hr
        subst hr
        subst hst
        exact hk
  | numKeys tc =>
      simp only [Store.applyOp, Option.map_eq_some'] at h
      obtain ⟨r, hr, hst⟩ := h
      rcases hw : s.waitUntilCurrent tc ab with _ | _ | _ <;>
        simp only [Store.NumKeys, hw, VectorClock.Copy, Option.some_inj] at hr
      · subst hr
        subst hst
        exact hk
      · exact absurd hr (by simp)
      · subst hr
        subst hst
        exact hk
  | importEntry e =>
      simp only [Store.applyOp] at h
      rcases hi : s.ImportEntry e with _ | _ | s3 <;> simp only [hi] at h
      · exact absurd h (by simp)
      · exact absurd h (by simp)
      · rw [Option.some_inj] at h
        subst h
        by_cases hg : s.waitForGossip e.Clock = true
        · simp only [Store.ImportEntry, hg, if_true] at hi
          cases hsg : storeGet s.store e.Key with
          | none =>
              rw [hsg] at hi
              exact absurd hi (by simp)
          | some old =>
              rw [hsg] at hi
              simp only [Store.commitWrite, ImportResult.done.injEq] at hi
              subst hi
              exact isSome_storeGet_storeSet _ e.Key _ k
                (isSome_storeGet_storeSet s.store e.Key _ k hk)
        · have hg2 : s.waitForGossip e.Clock = false := by simpa using hg
          simp only [Store.ImportEntry, hg2, Bool.false_eq_true, if_false] at hi
          exact absurd hi (by simp)
  | bumpClockForNode node =>
      simp only [Store.applyOp, Option.some_inj] at h
      subst h
      exact hk
  | setReplicas ns =>
      simp only [Store.applyOp, Option.some_inj] at h
      subst h
      exact hk

/-- C9: the routing decision serves locally (does not forward) whenever the
hash layer's Get returns an error, and otherwise forwards exactly when the
owning member returned by Get differs from this node's own address. -/
theorem shouldForward_spec (hashGet : String → Except String String)
    (address key : String) :
    (∀ msg, hashGet key = Except.error msg →
      shouldForward hashGet address key = false) ∧
    (∀ member, hashGet key = Except.ok member →
      (shouldForward hashGet address key = true ↔ member ≠ address)) := by
  constructor
  · intro msg hmsg
    simp [shouldForward, hmsg]
  · intro member hm
    by_cases hma : member = address <;> simp [shouldForward, hm, hma]

/-- C10: when Delete commits a tombstone, the stored entry for the key holds
the empty string as its value (the previous value is gone from the map), and
the journal emission carries the same empty-valued tombstone. -/
theorem delete_tombstone_value_empty (s : Store) (ab : Bool) (tc : VectorClock)
    (key : String) (r : DeleteResult) (h : s.Delete ab tc key = some r)
    (hd : r.deleted = true) :
    storeGet r.state.store key =
      some { Key := key, Value := "", Deleted := true, Clock := r.state.vc } ∧
    r.journal = [{ Key := key, Value := "", Deleted := true, Clock := r.state.vc }] := by
  rcases hw : s.waitUntilCurrent tc ab with _ | _ | _ <;>
    simp only [Store.Delete, hw, Store.commitWrite, VectorClock.Copy] at h
  · cases hg : storeGet s.store key with
    | none =>
        rw [hg] at h
        rw [Option.some_inj] at h
        subst h
        simp at hd
    | some e1 =>
        rw [hg] at h
        by_cases hdel : e1.Deleted
        · simp only [hdel, if_true, Option.some_inj] at h
          subst h
          simp at hd
        · have hdel2 : e1.Deleted = false := by simpa using hdel
          simp only [hdel2, Bool.false_eq_true, if_false, Option.some_inj] at h
          subst h
          constructor
          · simp [storeGet_storeSet]
          · rfl
  · exact absurd h (by simp)
  · rw [Option.some_inj] at h
    subst h
    simp at hd

/-! Concrete witnesses instantiating each conditional theorem. -/

/-- Witness for C1 at a concrete write on a fresh store. -/
theorem Write_correct_witness :
    (Store.New "A" ["A"]).Write false [] "a" "1" = some rW ∧
    storeGet rW.state.store "a" =
      some { Key := "a", Value := "1", Deleted := false, Clock := rW.state.vc } :=
  ⟨by decide,
    (Write_correct (Store.New "A" ["A"]) false [] "a" "1" rW (by decide) (by decide)).2.1⟩

/-- Witness for C3 at a concrete delete of a live key. -/
theorem Delete_correct_witness :
    sA.Delete false [] "a" = some rD ∧ rD.deleted = true :=
  ⟨by decide,
    ((Delete_correct sA false [] "a" rD (by decide) (by decide)).1
      ⟨aliveEntry, by decide, by decide⟩).1⟩

/-- Witness for C4 at a concrete read on the sample store. -/
theorem Read_NumKeys_pure_witness :
    sA.Read false [] "a" = some qR ∧ qR.state = sA :=
  ⟨by decide,
    ((Read_NumKeys_pure sA false [] "a" (by decide)).1 qR (by decide) (by decide)).1⟩

/-- Witness for C5 at a concrete abandoned wait. -/
theorem errors_only_cannotApply_witness :
    sB.Write true [("B", 5)] "k" "v" = some rE ∧
    (rE.err = some GoError.ErrCannotApply ∧ true = true ∧
      sB.canProceed [("B", 5)] = false) :=
  ⟨by decide,
    (errors_only_cannotApply sB true [("B", 5)] "k" "v").1 rE (by decide) (by decide)⟩

/-- Witness for C7 at a concrete clock bump. -/
theorem vc_monotone_witness :
    sA.applyOp false (StoreOp.bumpClockForNode "B") = some sBumped ∧
    vcGet sA.vc "A" ≤ vcGet sBumped.vc "A" :=
  ⟨by decide,
    vc_monotone sA false (StoreOp.bumpClockForNode "B") sBumped (by decide) "A"⟩

/-- Witness for C8 at a concrete delete. -/
theorem keys_never_removed_witness :
    sA.applyOp false (StoreOp.delete [] "a") = some rD.state ∧
    (storeGet rD.state.store "a").isSome = true :=
  ⟨by decide,
    keys_never_removed sA false (StoreOp.delete [] "a") rD.state (by decide) "a"
      (by decide)⟩

/-- Witness for C9 at a concrete membership function. -/
theorem shouldForward_spec_witness :
    hashGetB "k" = Except.ok "B" ∧
    (shouldForward hashGetB "A" "k" = true ↔ ("B" : String) ≠ "A") :=
  ⟨rfl, (shouldForward_spec hashGetB "A" "k").2 "B" rfl⟩

/-- Witness for C10 at a concrete delete of a live key. -/
theorem delete_tombstone_value_empty_witness :
    sA.Delete false [] "a" = some rD ∧
    storeGet rD.state.store "a" =
      some { Key := "a", Value := "", Deleted := true, Clock := rD.state.vc } :=
  ⟨by decide,
    (delete_tombstone_value_empty sA false [] "a" rD (by decide) (by decide)).1⟩
